import Mathlib

/-! # libnumerixpy: the factorial / factorial-sum core (`ext/src/libbasemath.c`)

A shallow embedding of the C functions `factorial`, `cfactorial_sum` and
`ifactorial_sum`, of the two bindings of `lnpy_basemath.c` that surface the sums, and
of `calculate_discriminant`.

* The data model is LP64: `long` has 64 bits, `int` and `unsigned` have 32.
* `long` and `int` values are mathematical integers (`Int`); the places where C
  leaves signed arithmetic undefined (`n - 1` below `LONG_MIN`, `i++` above
  `INT_MAX`) are explicit faults.
* `unsigned long` values are naturals reduced modulo `2^64`, `unsigned` values
  naturals reduced modulo `2^32`.
* `factorial` is recursive in C with no guard on the sign of its argument, so
  the embedding carries a recursion budget (`fuel`): one unit per call.
* Arrays are lists holding the array's cells; a read past the last cell is a
  fault.
* The arithmetic of `double` is a parameter (`DoubleArith`): nothing is assumed of it
  but, where stated, that it is exact on small integers.
-/

namespace Libnumerixpy

/-- Ways in which running the C code fails to produce a value. -/
inductive Fault where
  /-- The error kind of the specification. No path of the C source raises it. -/
  | InvalidArgument
  /-- Signed integer overflow, which C leaves undefined. -/
  | SignedOverflow
  /-- A read past the end of an array. -/
  | OutOfBounds
  /-- The recursion budget ran out before the call returned. -/
  | OutOfFuel
  deriving DecidableEq, Repr

deriving instance DecidableEq for Except

/-- Smallest value of a `long` (64 bits). -/
def LONG_MIN : Int := -9223372036854775808

/-- Largest value of a `long` (64 bits). -/
def LONG_MAX : Int := 9223372036854775807

/-- Largest value of an `int` (32 bits). -/
def INT_MAX : Int := 2147483647

/-- Number of values of an `unsigned long`: `2^64`. -/
def ULONG_MOD : Nat := 18446744073709551616

/-- The cast `(unsigned)n` of a `long`: `n` reduced modulo `2^32`. -/
def toUnsigned (n : Int) : Nat := (n % 4294967296).toNat

/-- The function `factorial` of `libbasemath.c`:
`if (n == 0) return 1; return (unsigned)n * factorial(n-1);`
The product of an `unsigned` and an `unsigned long` is an `unsigned long`. -/
def factorial : Nat → Int → Except Fault Nat
  | 0, _ => .error .OutOfFuel
  | fuel + 1, n =>
    if n = 0 then .ok 1
    else if n - 1 < LONG_MIN then .error .SignedOverflow
    else
      match factorial fuel (n - 1) with
      | .ok r => .ok ((toUnsigned n * r) % ULONG_MOD)
      | .error e => .error e

/-- The step `i++` of an `int` loop index. -/
def intIncr (i : Int) : Except Fault Int :=
  if i + 1 > INT_MAX then .error .SignedOverflow else .ok (i + 1)

/-- The loop of `cfactorial_sum`, from index `i` with the cells of `num_chars`
from `i` on as the list:
`for (...; num_chars[i]; i++) { ith_num = num_chars[i] - '0'; ... }`. -/
def cfactorial_sum_loop (fuel : Nat) : List Int → Int → Nat → Except Fault Nat
  | [], _, _ => .error .OutOfBounds
  | c :: rest, i, sum =>
    if c = 0 then .ok sum
    else
      let ith_num := c - 48
      match factorial fuel ith_num with
      | .error e => .error e
      | .ok fact_num =>
        match intIncr i with
        | .error e => .error e
        | .ok j => cfactorial_sum_loop fuel rest j ((sum + fact_num) % ULONG_MOD)

/-- The function `cfactorial_sum` of `libbasemath.c`; `num_chars` lists the cells of
the character array, its terminating NUL included. -/
def cfactorial_sum (fuel : Nat) (num_chars : List Int) : Except Fault Nat :=
  cfactorial_sum_loop fuel num_chars 0 0

/-- The loop of `ifactorial_sum`, from index `i` with the cells of `nums` from `i`
on as the list: `for (...; i < size; i++) { fact_num = factorial(nums[i]); ... }`. -/
def ifactorial_sum_loop (fuel : Nat) (size : Int) : List Int → Int → Nat → Except Fault Nat
  | [], i, sum => if i < size then .error .OutOfBounds else .ok sum
  | x :: rest, i, sum =>
    if i < size then
      match factorial fuel x with
      | .error e => .error e
      | .ok fact_num =>
        match intIncr i with
        | .error e => .error e
        | .ok j => ifactorial_sum_loop fuel size rest j ((sum + fact_num) % ULONG_MOD)
    else .ok sum

/-- The function `ifactorial_sum` of `libbasemath.c`. -/
def ifactorial_sum (fuel : Nat) (nums : List Int) (size : Int) : Except Fault Nat :=
  ifactorial_sum_loop fuel size nums 0 0

/-- The cells of the C string with the characters of `s` (ASCII), NUL included. -/
def cstring (s : String) : List Int :=
  s.toList.map (fun c => (c.toNat : Int)) ++ [0]

/-- A character in `'0'..'9'`. -/
def isDigitChar (c : Int) : Prop := 48 ≤ c ∧ c ≤ 57

instance (c : Int) : Decidable (isDigitChar c) := by
  unfold isDigitChar; infer_instance

/-- The arguments of the calls that `factorial` makes, the outermost first, under the
same recursion budget: the branches of `factorial`, each call recording its argument.
No call returns before the innermost one has, since every product
`(unsigned)n * factorial(n-1)` is formed after the inner call: the calls of the list
are all pending at once, and its length is the depth of the call stack. -/
def factorial_calls : Nat → Int → List Int
  | 0, _ => []
  | fuel + 1, n =>
    if n = 0 then [n]
    else if n - 1 < LONG_MIN then [n]
    else n :: factorial_calls fuel (n - 1)

/-- The integer that `Py_BuildValue("i", fact_sum)` builds from an `unsigned long`
argument: the format `"i"` reads a C `int`, which under the LP64 calling conventions
is the low 32 bits of the argument, in two's complement. -/
def Py_BuildValue_i (fact_sum : Nat) : Int :=
  let low : Int := ((fact_sum % 4294967296 : Nat) : Int)
  if low < 2147483648 then low else low - 4294967296

/-- The binding `cFactorial_sum` of `lnpy_basemath.c`, on the cells of the parsed
string: `fact_sum = cfactorial_sum(char_nums); return Py_BuildValue("i", fact_sum);`. -/
def cFactorial_sum (fuel : Nat) (char_nums : List Int) : Except Fault Int :=
  match cfactorial_sum fuel char_nums with
  | .ok fact_sum => .ok (Py_BuildValue_i fact_sum)
  | .error e => .error e

/-- The binding `iFactorial_sum` of `lnpy_basemath.c`, on a host list of integers that
fit a `long`: the items are copied to `nums[0..n)` with `n` the length of the list,
then `fact_sum = ifactorial_sum(nums, n); return Py_BuildValue("i", fact_sum);`. -/
def iFactorial_sum (fuel : Nat) (lst : List Int) : Except Fault Int :=
  let n : Int := (lst.length : Int)
  let nums : List Int := lst
  match ifactorial_sum fuel nums n with
  | .ok fact_sum => .ok (Py_BuildValue_i fact_sum)
  | .error e => .error e

/-- The arithmetic of the C type `double` as far as `calculate_discriminant` uses it:
the product, the difference, and the conversion of an integer constant. The type and
its operations are the platform's; they are a parameter here. -/
structure DoubleArith (D : Type) where
  /-- The product `x * y` of two doubles. -/
  mul : D → D → D
  /-- The difference `x - y` of two doubles. -/
  sub : D → D → D
  /-- The double an integer constant converts to. -/
  ofInt : Int → D

/-- The function `calculate_discriminant` of `libbasemath.c`:
`double discriminant = b * b - 4 * a * c; return discriminant;`, which C reads as
`(b * b) - ((4 * a) * c)`. -/
def calculate_discriminant {D : Type} (A : DoubleArith D) (a b c : D) : D :=
  let discriminant := A.sub (A.mul b b) (A.mul (A.mul (A.ofInt 4) a) c)
  discriminant

/-- The formula inlined in the binding `calculate_discriminant` of `lnpy_cmath.c`:
`double discriminant = b * b - 4 * a * c;`. -/
def lnpy_cmath_calculate_discriminant {D : Type} (A : DoubleArith D) (a b c : D) : D :=
  let discriminant := A.sub (A.mul b b) (A.mul (A.mul (A.ofInt 4) a) c)
  discriminant

/-- The formula of the documentation strings of the two bindings, `D = b^2 * 4ac`,
read as `(b * b) * ((4 * a) * c)`. -/
def docstring_discriminant {D : Type} (A : DoubleArith D) (a b c : D) : D :=
  A.mul (A.mul b b) (A.mul (A.mul (A.ofInt 4) a) c)

/-- The arithmetic is exact on the natural numbers up to `2^53`, as the binary64
arithmetic of IEEE 754 is: a product or a difference that is such a number is
returned as it is, and different such numbers are different doubles. -/
structure ExactOnSmall {D : Type} (A : DoubleArith D) : Prop where
  /-- A product of naturals that is at most `2^53` is exact. -/
  mul_exact : ∀ x y : Nat, x * y ≤ 2 ^ 53 →
    A.mul (A.ofInt (x : Int)) (A.ofInt (y : Int)) = A.ofInt ((x : Int) * (y : Int))
  /-- A difference of naturals up to `2^53` that is not negative is exact. -/
  sub_exact : ∀ x y : Nat, y ≤ x → x ≤ 2 ^ 53 →
    A.sub (A.ofInt (x : Int)) (A.ofInt (y : Int)) = A.ofInt ((x : Int) - (y : Int))
  /-- Naturals up to `2^53` convert to different doubles. -/
  ofInt_inj : ∀ x y : Nat, x ≤ 2 ^ 53 → y ≤ 2 ^ 53 →
    A.ofInt (x : Int) = A.ofInt (y : Int) → x = y

/-- The arithmetic of the integers, with which that of `double` agrees while every
value is an integer of magnitude at most `2^53`. -/
def integerArith : DoubleArith Int where
  mul := fun x y => x * y
  sub := fun x y => x - y
  ofInt := fun x => x

/-! ## Arithmetic of the truncated product -/

theorem toUnsigned_of_lt (k : Nat) (h : k < 4294967296) : toUnsigned (k : Int) = k := by
  unfold toUnsigned
  have h1 : ((k : Int) % 4294967296) = (k : Int) :=
    Int.emod_eq_of_lt (Int.ofNat_nonneg k) (by exact_mod_cast h)
  rw [h1]
  exact Int.toNat_natCast k

theorem ulong_mod_dvd_factorial (n : Nat) (h : 66 ≤ n) : ULONG_MOD ∣ n.factorial := by
  have h66 : ULONG_MOD ∣ Nat.factorial 66 := by decide
  exact Nat.dvd_trans h66 (Nat.factorial_dvd_factorial h)

/-- One step of the C recurrence, with the 32-bit truncated factor, agrees with the
true factorial modulo `2^64`. -/
theorem truncated_step (k : Nat) :
    (toUnsigned ((k + 1 : Nat) : Int) * (k.factorial % ULONG_MOD)) % ULONG_MOD
      = (k + 1).factorial % ULONG_MOD := by
  by_cases hk : k + 1 < 4294967296
  · rw [toUnsigned_of_lt _ hk, Nat.factorial_succ, Nat.mul_mod, Nat.mod_mod, ← Nat.mul_mod]
  · have h66 : 66 ≤ k := by omega
    have h1 : k.factorial % ULONG_MOD = 0 :=
      Nat.mod_eq_zero_of_dvd (ulong_mod_dvd_factorial k h66)
    have h2 : (k + 1).factorial % ULONG_MOD = 0 :=
      Nat.mod_eq_zero_of_dvd (ulong_mod_dvd_factorial (k + 1) (by omega))
    rw [h1, h2, Nat.mul_zero, Nat.zero_mod]

/-- With more fuel than the argument, `factorial` returns `k!` modulo `2^64`. -/
theorem factorial_natCast (k : Nat) : ∀ fuel : Nat, k < fuel →
    factorial fuel (k : Int) = .ok (k.factorial % ULONG_MOD) := by
  induction k with
  | zero =>
    intro fuel hf
    obtain ⟨f, rfl⟩ : ∃ f, fuel = f + 1 := ⟨fuel - 1, by omega⟩
    simp [factorial, ULONG_MOD]
  | succ k ih =>
    intro fuel hf
    obtain ⟨f, rfl⟩ : ∃ f, fuel = f + 1 := ⟨fuel - 1, by omega⟩
    have hne : ((k + 1 : Nat) : Int) ≠ 0 := by exact_mod_cast Nat.succ_ne_zero k
    have hsub : ((k + 1 : Nat) : Int) - 1 = (k : Int) := by push_cast; ring
    have hlo : ¬ ((k : Int) < LONG_MIN) := by
      have : (0 : Int) ≤ (k : Int) := Int.ofNat_nonneg k
      unfold LONG_MIN; omega
    rw [factorial, if_neg hne, hsub, if_neg hlo, ih f (by omega)]
    simp only []
    rw [truncated_step]

/-- The same, for a non-negative `long` argument. -/
theorem factorial_of_nonneg (fuel : Nat) (n : Int) (h0 : 0 ≤ n) (hf : n.toNat < fuel) :
    factorial fuel n = .ok (n.toNat.factorial % ULONG_MOD) := by
  have h := factorial_natCast n.toNat fuel hf
  rwa [Int.toNat_of_nonneg h0] at h

/-! ## The factorial engine -/

/-- C1: for every `long` `n ≥ 0`, `factorial(n)` returns (given one unit of recursion
budget per call, so more than `n`) the mathematical factorial `n!` reduced modulo
`2^64`, although the factor is `(unsigned)n`; and `factorial(21)` is
`21! mod 2^64 = 14197454024290336768`. -/
theorem factorial_eq_factorial_mod :
    (∀ (fuel : Nat) (n : Int), 0 ≤ n → n ≤ LONG_MAX → n.toNat < fuel →
      factorial fuel n = .ok (n.toNat.factorial % 2 ^ 64)) ∧
    factorial 22 21 = .ok 14197454024290336768 ∧
    Nat.factorial 21 % 2 ^ 64 = 14197454024290336768 := by
  refine ⟨?_, by decide, by decide⟩
  intro fuel n h0 _ hf
  have h := factorial_of_nonneg fuel n h0 hf
  simpa [ULONG_MOD] using h

/-- C1 at `n = 25`, which is past the wraparound point: `25! mod 2^64`. -/
theorem factorial_eq_factorial_mod_witness :
    factorial 26 25 = .ok (Nat.factorial 25 % 2 ^ 64) ∧
    Nat.factorial 25 % 2 ^ 64 = 7034535277573963776 :=
  ⟨factorial_eq_factorial_mod.1 26 25 (by decide) (by decide) (by decide), by decide⟩

/-- C2: for every `n` in `[0, 20]`, `factorial(n)` is the exact factorial `n!`, and
`n! < 2^64` so nothing wrapped; `factorial(0) = 1` and `factorial(5) = 120`. -/
theorem factorial_exact_upto_20 :
    (∀ (fuel : Nat) (n : Int), 0 ≤ n → n ≤ 20 → n.toNat < fuel →
      factorial fuel n = .ok n.toNat.factorial ∧ n.toNat.factorial < 2 ^ 64) ∧
    factorial 1 0 = .ok 1 ∧ factorial 6 5 = .ok 120 := by
  refine ⟨?_, by decide, by decide⟩
  intro fuel n h0 h20 hf
  have hk : n.toNat ≤ 20 := by omega
  have hlt : n.toNat.factorial < 2 ^ 64 :=
    lt_of_le_of_lt (Nat.factorial_le hk) (by decide)
  refine ⟨?_, hlt⟩
  rw [factorial_of_nonneg fuel n h0 hf, ULONG_MOD, Nat.mod_eq_of_lt (by simpa using hlt)]

/-- C2 at `n = 20`, the last argument whose factorial fits in 64 bits. -/
theorem factorial_exact_upto_20_witness :
    factorial 21 20 = .ok 2432902008176640000 ∧ Nat.factorial 20 = 2432902008176640000 := by
  have h := (factorial_exact_upto_20.1 21 20 (by decide) (by decide) (by decide)).1
  exact ⟨by simpa [Nat.factorial] using h, by decide⟩

/-- C3: `factorial` satisfies its recurrence over the whole non-negative `long` range:
`factorial(0) = 1`, and for `n > 0` the call `factorial(n - 1)` returns some `r` and
`factorial(n)` returns `(n * r) mod 2^64` with `n` at full width, also where
`(unsigned)n` drops high bits of `n`. -/
theorem factorial_recurrence :
    (∀ fuel : Nat, 0 < fuel → factorial fuel 0 = .ok 1) ∧
    (∀ (fuel : Nat) (n : Int), 0 < n → n ≤ LONG_MAX → n.toNat < fuel →
      ∃ r : Nat, factorial fuel (n - 1) = .ok r ∧
        factorial fuel n = .ok ((n.toNat * r) % 2 ^ 64)) := by
  constructor
  · intro fuel hf
    obtain ⟨f, rfl⟩ : ∃ f, fuel = f + 1 := ⟨fuel - 1, by omega⟩
    simp [factorial]
  · intro fuel n hpos _ hf
    obtain ⟨k, hk⟩ : ∃ k : Nat, n.toNat = k + 1 := ⟨n.toNat - 1, by omega⟩
    have hpred : (n - 1).toNat = k := by omega
    refine ⟨k.factorial % ULONG_MOD, ?_, ?_⟩
    · have h := factorial_of_nonneg fuel (n - 1) (by omega) (by omega)
      rwa [hpred] at h
    · rw [factorial_of_nonneg fuel n (by omega) hf, hk, Nat.factorial_succ]
      have hM : ULONG_MOD = 2 ^ 64 := by decide
      rw [hM, Nat.mul_mod_mod]

/-- C3 at `n = 2^32`, the first argument whose cast `(unsigned)n` differs from `n`. -/
theorem factorial_recurrence_witness :
    ∃ r : Nat, factorial 4294967297 (4294967296 - 1) = .ok r ∧
      factorial 4294967297 4294967296 = .ok (((4294967296 : Int).toNat * r) % 2 ^ 64) :=
  factorial_recurrence.2 4294967297 4294967296 (by decide) (by decide) (by decide)

/-! ## The two summation loops -/

theorem intIncr_of_lt (i : Int) (h : i < INT_MAX) : intIncr i = .ok (i + 1) := by
  unfold intIncr
  rw [if_neg (by omega)]

theorem intIncr_of_ge (i : Int) (h : INT_MAX ≤ i) : intIncr i = .error .SignedOverflow := by
  unfold intIncr
  rw [if_pos (by omega)]

/-- The sum of the summands reduced modulo `m` is the sum modulo `m`. -/
theorem sum_map_mod (f : Int → Nat) (m : Nat) (xs : List Int) :
    (xs.map (fun x => f x % m)).sum % m = (xs.map f).sum % m := by
  induction xs with
  | nil => rfl
  | cons x rest ih =>
    simp only [List.map_cons, List.sum_cons]
    rw [Nat.add_mod, Nat.mod_mod, ih, ← Nat.add_mod]

/-- The loop of `ifactorial_sum` over the remaining cells `xs`, all non-negative and
below the recursion budget, when exactly the cells up to `size` remain. -/
theorem ifactorial_sum_loop_nonneg (fuel : Nat) (size : Int) (hsize : size ≤ INT_MAX) :
    ∀ (xs : List Int) (i : Int) (sum : Nat),
      (∀ x ∈ xs, 0 ≤ x ∧ x.toNat < fuel) → i + xs.length = size → sum < ULONG_MOD →
      ifactorial_sum_loop fuel size xs i sum
        = .ok ((sum + (xs.map (fun x => x.toNat.factorial % ULONG_MOD)).sum) % ULONG_MOD) := by
  intro xs
  induction xs with
  | nil =>
    intro i sum _ hlen hsum
    have hi : ¬ i < size := by simp at hlen; omega
    simp [ifactorial_sum_loop, hi, Nat.mod_eq_of_lt hsum]
  | cons x rest ih =>
    intro i sum hall hlen hsum
    have hx := hall x (List.mem_cons_self x rest)
    have hlen2 : i + 1 + (rest.length : Int) = size := by
      simp only [List.length_cons, Nat.cast_add, Nat.cast_one] at hlen; omega
    have hi : i < size := by omega
    have hinc : intIncr i = .ok (i + 1) := intIncr_of_lt i (by omega)
    have hrest : ∀ y ∈ rest, 0 ≤ y ∧ y.toNat < fuel :=
      fun y hy => hall y (List.mem_cons_of_mem x hy)
    have hM : 0 < ULONG_MOD := by decide
    rw [ifactorial_sum_loop, if_pos hi, factorial_of_nonneg fuel x hx.1 hx.2]
    simp only [hinc]
    rw [ih (i + 1) _ hrest hlen2 (Nat.mod_lt _ hM)]
    simp only [List.map_cons, List.sum_cons, Nat.mod_add_mod, Nat.add_assoc]

/-- The factorial of a decimal digit fits in 64 bits. -/
theorem digit_factorial_lt (c : Int) (hc : isDigitChar c) :
    (c - 48).toNat.factorial < ULONG_MOD := by
  have hk : (c - 48).toNat ≤ 9 := by unfold isDigitChar at hc; omega
  exact lt_of_le_of_lt (Nat.factorial_le hk) (by decide)

/-- The loop of `cfactorial_sum` over digit characters `s` followed by the NUL, while
the index stays an `int`. -/
theorem cfactorial_sum_loop_digits (fuel : Nat) (hf : 10 ≤ fuel) (tail : List Int) :
    ∀ (s : List Int) (i : Int) (sum : Nat),
      (∀ c ∈ s, isDigitChar c) → i + s.length ≤ INT_MAX → sum < ULONG_MOD →
      cfactorial_sum_loop fuel (s ++ 0 :: tail) i sum
        = .ok ((sum + (s.map (fun c => (c - 48).toNat.factorial)).sum) % ULONG_MOD) := by
  intro s
  induction s with
  | nil =>
    intro i sum _ _ hsum
    simp [cfactorial_sum_loop, Nat.mod_eq_of_lt hsum]
  | cons c rest ih =>
    intro i sum hall hlen hsum
    have hc := hall c (List.mem_cons_self c rest)
    have hc2 : 48 ≤ c ∧ c ≤ 57 := hc
    have hne : c ≠ 0 := by omega
    have hlen2 : i + 1 + (rest.length : Int) ≤ INT_MAX := by
      simp only [List.length_cons, Nat.cast_add, Nat.cast_one] at hlen; omega
    have hinc : intIncr i = .ok (i + 1) := intIncr_of_lt i (by omega)
    have hrest : ∀ d ∈ rest, isDigitChar d :=
      fun d hd => hall d (List.mem_cons_of_mem c hd)
    have hM : 0 < ULONG_MOD := by decide
    have hfact : factorial fuel (c - 48) = .ok (c - 48).toNat.factorial := by
      rw [factorial_of_nonneg fuel (c - 48) (by omega) (by omega),
        Nat.mod_eq_of_lt (digit_factorial_lt c hc)]
    rw [List.cons_append, cfactorial_sum_loop, if_neg hne]
    simp only [hfact, hinc]
    rw [ih (i + 1) _ hrest hlen2 (Nat.mod_lt _ hM)]
    simp only [List.map_cons, List.sum_cons, Nat.mod_add_mod, Nat.add_assoc]

/-- The loop of `cfactorial_sum` over digit characters that do not fit the `int`
index: the increment overflows. -/
theorem cfactorial_sum_loop_overflow (fuel : Nat) (hf : 10 ≤ fuel) (tail : List Int) :
    ∀ (s : List Int) (i : Int) (sum : Nat),
      (∀ c ∈ s, isDigitChar c) → i ≤ INT_MAX → INT_MAX < i + s.length →
      cfactorial_sum_loop fuel (s ++ 0 :: tail) i sum = .error .SignedOverflow := by
  intro s
  induction s with
  | nil =>
    intro i sum _ hi hlen
    simp at hlen; omega
  | cons c rest ih =>
    intro i sum hall hi hlen
    have hc := hall c (List.mem_cons_self c rest)
    have hc2 : 48 ≤ c ∧ c ≤ 57 := hc
    have hne : c ≠ 0 := by omega
    have hrest : ∀ d ∈ rest, isDigitChar d :=
      fun d hd => hall d (List.mem_cons_of_mem c hd)
    have hfact : factorial fuel (c - 48) = .ok (c - 48).toNat.factorial := by
      rw [factorial_of_nonneg fuel (c - 48) (by omega) (by omega),
        Nat.mod_eq_of_lt (digit_factorial_lt c hc)]
    rw [List.cons_append, cfactorial_sum_loop, if_neg hne]
    simp only [hfact]
    by_cases hmax : INT_MAX ≤ i
    · simp only [intIncr_of_ge i hmax]
    · have hinc : intIncr i = .ok (i + 1) := intIncr_of_lt i (by omega)
      simp only [hinc]
      have hlen2 : INT_MAX < i + 1 + (rest.length : Int) := by
        simp only [List.length_cons, Nat.cast_add, Nat.cast_one] at hlen; omega
      exact ih (i + 1) _ hrest (by omega) hlen2

/-- The loop of `cfactorial_sum` returns no value when no NUL shows up before the
`int` index is exhausted. -/
theorem cfactorial_sum_loop_no_value_of_long (fuel : Nat) (tail : List Int) :
    ∀ (s : List Int) (i : Int) (sum : Nat),
      (∀ c ∈ s, c ≠ 0) → i ≤ INT_MAX → INT_MAX < i + s.length →
      ∀ v : Nat, cfactorial_sum_loop fuel (s ++ tail) i sum ≠ .ok v := by
  intro s
  induction s with
  | nil =>
    intro i sum _ hi hlen
    simp at hlen; omega
  | cons c rest ih =>
    intro i sum hall hi hlen v
    have hne : c ≠ 0 := hall c (List.mem_cons_self c rest)
    have hrest : ∀ d ∈ rest, d ≠ 0 := fun d hd => hall d (List.mem_cons_of_mem c hd)
    rw [List.cons_append, cfactorial_sum_loop, if_neg hne]
    cases hfact : factorial fuel (c - 48) with
    | error e => simp [hfact]
    | ok f =>
      simp only [hfact]
      by_cases hmax : INT_MAX ≤ i
      · simp [intIncr_of_ge i hmax]
      · have hinc : intIncr i = .ok (i + 1) := intIncr_of_lt i (by omega)
        have hlen2 : INT_MAX < i + 1 + (rest.length : Int) := by
          simp only [List.length_cons, Nat.cast_add, Nat.cast_one] at hlen; omega
        simp only [hinc]
        exact ih (i + 1) _ hrest (by omega) hlen2 v

/-! ## The sums over valid input -/

/-- C4 (counterexample): a string of `2^31` characters `'1'` is a NUL-terminated
string of digits, yet `cfactorial_sum` returns no sum for it: the increment `i++` of
the `int` index overflows after the cell `INT_MAX`. -/
theorem cfactorial_sum_long_string_overflow :
    (∀ c ∈ List.replicate 2147483648 (49 : Int), isDigitChar c) ∧
    cfactorial_sum 10 (List.replicate 2147483648 (49 : Int) ++ [0]) = .error .SignedOverflow ∧
    ¬ ∃ fuel v : Nat,
      cfactorial_sum fuel (List.replicate 2147483648 (49 : Int) ++ [0]) = .ok v := by
  have hdigit : ∀ c ∈ List.replicate 2147483648 (49 : Int), isDigitChar c := by
    intro c hc
    rw [List.eq_of_mem_replicate hc]
    decide
  have hlen : INT_MAX < (0 : Int) + ((List.replicate 2147483648 (49 : Int)).length : Int) := by
    rw [List.length_replicate]
    decide
  refine ⟨hdigit, ?_, ?_⟩
  · exact cfactorial_sum_loop_overflow 10 (by decide) [] _ 0 0 hdigit (by decide) hlen
  · rintro ⟨fuel, v, h⟩
    refine cfactorial_sum_loop_no_value_of_long fuel [0] _ 0 0 ?_ (by decide) hlen v h
    intro c hc
    rw [List.eq_of_mem_replicate hc]
    decide

/-- C4 (amended): for every NUL-terminated string `s` of characters `'0'..'9'` of
length at most `INT_MAX` (below `2^31`), `cfactorial_sum(s)` returns the sum over the
characters `c` of `s`, each once, of the factorial of `c - '0'`, reduced modulo
`2^64`; the empty string gives 0 and `"123"` gives 9. -/
theorem cfactorial_sum_digits :
    (∀ (fuel : Nat) (s : List Int), 10 ≤ fuel → (∀ c ∈ s, isDigitChar c) →
      (s.length : Int) ≤ INT_MAX →
      cfactorial_sum fuel (s ++ [0])
        = .ok ((s.map (fun c => (c - 48).toNat.factorial)).sum % 2 ^ 64)) ∧
    (∀ fuel : Nat, cfactorial_sum fuel (cstring "") = .ok 0) ∧
    cfactorial_sum 10 (cstring "123") = .ok 9 := by
  refine ⟨?_, ?_, by decide⟩
  · intro fuel s hf hs hlen
    have h := cfactorial_sum_loop_digits fuel hf [] s 0 0 hs (by omega) (by decide)
    unfold cfactorial_sum
    rw [h, Nat.zero_add]
    rfl
  · intro fuel
    rfl

/-- C4 (amended) at the string `"907"`: `9! + 0! + 7! = 367921`. -/
theorem cfactorial_sum_digits_witness :
    cfactorial_sum 10 ([57, 48, 55] ++ [0]) = .ok 367921 := by
  have h := cfactorial_sum_digits.1 10 [57, 48, 55] (by decide) (by decide) (by decide)
  rw [h]
  decide

/-- C5: for every array `values` of `size` non-negative `long` values,
`ifactorial_sum(values, size)` returns the sum over all cells of
`factorial(values[i])`, that is of `values[i]!` modulo `2^64`, reduced modulo `2^64`;
the empty list gives 0 and `[3, 4]` gives 30. -/
theorem ifactorial_sum_nonneg :
    (∀ (fuel : Nat) (values : List Int) (size : Int),
      (∀ x ∈ values, 0 ≤ x ∧ x ≤ LONG_MAX ∧ x.toNat < fuel) →
      (values.length : Int) = size → size ≤ INT_MAX →
      ifactorial_sum fuel values size
        = .ok ((values.map (fun x => x.toNat.factorial % 2 ^ 64)).sum % 2 ^ 64)) ∧
    (∀ fuel : Nat, ifactorial_sum fuel [] 0 = .ok 0) ∧
    ifactorial_sum 5 [3, 4] 2 = .ok 30 := by
  refine ⟨?_, ?_, by decide⟩
  · intro fuel values size hall hlen hsize
    have h := ifactorial_sum_loop_nonneg fuel size hsize values 0 0
      (fun x hx => ⟨(hall x hx).1, (hall x hx).2.2⟩) (by omega) (by decide)
    unfold ifactorial_sum
    rw [h, Nat.zero_add]
    rfl
  · intro fuel
    rfl

/-- C5 at `[21, 0, 5]`: `21! mod 2^64 + 0! + 5!`. -/
theorem ifactorial_sum_nonneg_witness :
    ifactorial_sum 22 [21, 0, 5] 3 = .ok 14197454024290336889 := by
  have h := ifactorial_sum_nonneg.1 22 [21, 0, 5] 3 (by decide) (by decide) (by decide)
  rw [h]
  decide

/-- C6: the sums do not depend on the order of the input. For a list `xs` of
non-negative `long` values and a permutation `ys` of it, `ifactorial_sum` returns the
same value on both; for a digit string `s` and a rearrangement `t` of its characters,
`cfactorial_sum` gives the same result on both, a value when the string fits the `int`
index. -/
theorem factorial_sums_perm_invariant :
    (∀ (fuel : Nat) (xs ys : List Int),
      (∀ x ∈ xs, 0 ≤ x ∧ x ≤ LONG_MAX ∧ x.toNat < fuel) → (xs.length : Int) ≤ INT_MAX →
      xs.Perm ys →
      ifactorial_sum fuel ys ys.length = ifactorial_sum fuel xs xs.length ∧
        ∃ v : Nat, ifactorial_sum fuel xs xs.length = .ok v) ∧
    (∀ (fuel : Nat) (s t : List Int), 10 ≤ fuel → (∀ c ∈ s, isDigitChar c) → s.Perm t →
      cfactorial_sum fuel (t ++ [0]) = cfactorial_sum fuel (s ++ [0]) ∧
        ((s.length : Int) ≤ INT_MAX → ∃ v : Nat, cfactorial_sum fuel (s ++ [0]) = .ok v)) := by
  constructor
  · intro fuel xs ys hall hlen hperm
    have hx : ∀ x ∈ xs, 0 ≤ x ∧ x.toNat < fuel :=
      fun x hx => ⟨(hall x hx).1, (hall x hx).2.2⟩
    have hy : ∀ y ∈ ys, 0 ≤ y ∧ y.toNat < fuel :=
      fun y hy => hx y (hperm.mem_iff.mpr hy)
    have hleny : (ys.length : Int) ≤ INT_MAX := by rw [← hperm.length_eq]; exact hlen
    have h1 := ifactorial_sum_loop_nonneg fuel xs.length hlen xs 0 0 hx (by omega) (by decide)
    have h2 := ifactorial_sum_loop_nonneg fuel ys.length hleny ys 0 0 hy (by omega) (by decide)
    have hsum : (ys.map (fun x => x.toNat.factorial % ULONG_MOD)).sum
        = (xs.map (fun x => x.toNat.factorial % ULONG_MOD)).sum :=
      ((hperm.map _).sum_eq).symm
    unfold ifactorial_sum
    rw [h1, h2, hsum]
    exact ⟨rfl, _, rfl⟩
  · intro fuel s t hf hs hperm
    have ht : ∀ c ∈ t, isDigitChar c := fun c hc => hs c (hperm.mem_iff.mpr hc)
    have hlen : t.length = s.length := hperm.length_eq.symm
    unfold cfactorial_sum
    by_cases hfit : (s.length : Int) ≤ INT_MAX
    · have h1 := cfactorial_sum_loop_digits fuel hf [] s 0 0 hs (by omega) (by decide)
      have h2 := cfactorial_sum_loop_digits fuel hf [] t 0 0 ht (by omega) (by decide)
      have hsum : (t.map (fun c => (c - 48).toNat.factorial)).sum
          = (s.map (fun c => (c - 48).toNat.factorial)).sum :=
        ((hperm.map _).sum_eq).symm
      rw [h1, h2, hsum]
      exact ⟨rfl, fun _ => ⟨_, rfl⟩⟩
    · have h1 := cfactorial_sum_loop_overflow fuel hf [] s 0 0 hs (by decide) (by omega)
      have h2 := cfactorial_sum_loop_overflow fuel hf [] t 0 0 ht (by decide) (by omega)
      rw [h1, h2]
      exact ⟨rfl, fun h => absurd h hfit⟩

/-- C6 at the list `[3, 4, 21]` and its rearrangement `[21, 3, 4]`. -/
theorem factorial_sums_perm_invariant_witness :
    ifactorial_sum 22 [21, 3, 4] 3 = ifactorial_sum 22 [3, 4, 21] 3 ∧
    ifactorial_sum 22 [3, 4, 21] 3 = .ok 14197454024290336798 := by
  have h := factorial_sums_perm_invariant.1 22 [3, 4, 21] [21, 3, 4]
    (by decide) (by decide) (by decide)
  exact ⟨h.1, by decide⟩

/-! ## Invalid input: there is no rejection -/

/-- `factorial` never fails with `InvalidArgument`. -/
theorem factorial_ne_invalidArgument :
    ∀ (fuel : Nat) (n : Int), factorial fuel n ≠ .error .InvalidArgument := by
  intro fuel
  induction fuel with
  | zero => intro n; simp [factorial]
  | succ f ih =>
    intro n
    rw [factorial]
    split
    · simp
    · split
      · simp
      · have h := ih (n - 1)
        cases hrec : factorial f (n - 1) with
        | error e =>
          rw [hrec] at h
          simpa using h
        | ok r => simp

/-- The only faults of `factorial` are an exhausted budget and a signed overflow. -/
theorem factorial_error_cases :
    ∀ (fuel : Nat) (n : Int) (e : Fault), factorial fuel n = .error e →
      e = .OutOfFuel ∨ e = .SignedOverflow := by
  intro fuel
  induction fuel with
  | zero =>
    intro n e h
    simp [factorial] at h
    exact Or.inl h.symm
  | succ f ih =>
    intro n e h
    rw [factorial] at h
    split at h
    · simp at h
    · split at h
      · simp at h
        exact Or.inr h.symm
      · cases hrec : factorial f (n - 1) with
        | error e2 =>
          rw [hrec] at h
          simp at h
          exact h ▸ ih (n - 1) e2 hrec
        | ok r =>
          rw [hrec] at h
          simp at h

/-- On a negative argument inside the `long` range `factorial` runs down to
`LONG_MIN`: it stops with the budget if that is too small to get there, and with the
overflow of `n - 1` otherwise. -/
theorem factorial_of_neg :
    ∀ (fuel : Nat) (n : Int), n < 0 → LONG_MIN ≤ n →
      factorial fuel n
        = if (fuel : Int) ≤ n - LONG_MIN then .error .OutOfFuel else .error .SignedOverflow := by
  intro fuel
  induction fuel with
  | zero =>
    intro n _ hlo
    have h : ((0 : Nat) : Int) ≤ n - LONG_MIN := by simp; omega
    rw [if_pos h]
    rfl
  | succ f ih =>
    intro n hneg hlo
    rw [factorial, if_neg (by omega)]
    by_cases hmin : n - 1 < LONG_MIN
    · rw [if_pos hmin, if_neg (by push_cast; omega)]
    · rw [if_neg hmin, ih (n - 1) (by omega) (by omega)]
      by_cases hle : (f : Int) ≤ n - 1 - LONG_MIN
      · rw [if_pos hle, if_pos (by push_cast; omega)]
      · rw [if_neg hle, if_neg (by push_cast; omega)]

/-- On a negative argument `factorial` returns no value. -/
theorem factorial_neg_no_value :
    ∀ (fuel : Nat) (n : Int), n < 0 → ∀ v : Nat, factorial fuel n ≠ .ok v := by
  intro fuel
  induction fuel with
  | zero => intro n _ v; simp [factorial]
  | succ f ih =>
    intro n hneg v
    rw [factorial, if_neg (by omega)]
    split
    · simp
    · cases hrec : factorial f (n - 1) with
      | error e => simp
      | ok r => exact absurd hrec (ih (n - 1) (by omega) r)

/-- C7 (counterexample): `factorial(-1)` does not fail with `InvalidArgument`,
whatever the recursion budget: with a budget of 3 calls it is still recursing, on
`-2`, `-3`, ... -/
theorem factorial_neg_one_not_rejected :
    (¬ ∃ fuel : Nat, factorial fuel (-1) = .error .InvalidArgument) ∧
    factorial 3 (-1) = .error .OutOfFuel := by
  refine ⟨?_, by decide⟩
  rintro ⟨fuel, h⟩
  exact factorial_ne_invalidArgument fuel (-1) h

/-- C7 (amended): for every `long` `n < 0`, `factorial(n)` is not rejected: it does
not fail with `InvalidArgument` and returns no numeric result; the recursion goes down
through `n - 1`, `n - 2`, ... and ends only with the recursion budget or, at
`LONG_MIN`, with the signed overflow of `n - 1`. -/
theorem factorial_negative_unguarded (fuel : Nat) (n : Int) (hneg : n < 0)
    (hlo : LONG_MIN ≤ n) :
    factorial fuel n ≠ .error .InvalidArgument ∧
    (∀ v : Nat, factorial fuel n ≠ .ok v) ∧
    ((fuel : Int) ≤ n - LONG_MIN → factorial fuel n = .error .OutOfFuel) ∧
    (n - LONG_MIN < (fuel : Int) → factorial fuel n = .error .SignedOverflow) := by
  refine ⟨factorial_ne_invalidArgument fuel n, factorial_neg_no_value fuel n hneg, ?_, ?_⟩
  · intro h
    rw [factorial_of_neg fuel n hneg hlo, if_pos h]
  · intro h
    rw [factorial_of_neg fuel n hneg hlo, if_neg (by omega)]

/-- C7 (amended) at `n = LONG_MIN + 2` with a budget of 5 calls: the third call
computes `LONG_MIN - 1`. -/
theorem factorial_negative_unguarded_witness :
    factorial 5 (-9223372036854775806) = .error .SignedOverflow :=
  (factorial_negative_unguarded 5 (-9223372036854775806) (by decide) (by decide)).2.2.2
    (by decide)

/-- The loop of `cfactorial_sum` never fails with `InvalidArgument`. -/
theorem cfactorial_sum_loop_ne_invalidArgument (fuel : Nat) :
    ∀ (cells : List Int) (i : Int) (sum : Nat),
      cfactorial_sum_loop fuel cells i sum ≠ .error .InvalidArgument := by
  intro cells
  induction cells with
  | nil => intro i sum; simp [cfactorial_sum_loop]
  | cons c rest ih =>
    intro i sum
    rw [cfactorial_sum_loop]
    split
    · simp
    · cases hfact : factorial fuel (c - 48) with
      | error e =>
        have h := factorial_ne_invalidArgument fuel (c - 48)
        rw [hfact] at h
        simpa [hfact] using h
      | ok f =>
        simp only [hfact]
        by_cases hmax : INT_MAX ≤ i
        · simp [intIncr_of_ge i hmax]
        · simp only [intIncr_of_lt i (by omega)]
          exact ih (i + 1) _

/-- The loop of `cfactorial_sum` over characters not below `'0'`, digits or not: each
contributes the factorial of `c - '0'` modulo `2^64`. -/
theorem cfactorial_sum_loop_unvalidated (fuel : Nat) (tail : List Int) :
    ∀ (s : List Int) (i : Int) (sum : Nat),
      (∀ c ∈ s, 48 ≤ c ∧ (c - 48).toNat < fuel) → i + s.length ≤ INT_MAX →
      sum < ULONG_MOD →
      cfactorial_sum_loop fuel (s ++ 0 :: tail) i sum
        = .ok ((sum + (s.map (fun c => (c - 48).toNat.factorial % ULONG_MOD)).sum)
            % ULONG_MOD) := by
  intro s
  induction s with
  | nil =>
    intro i sum _ _ hsum
    simp [cfactorial_sum_loop, Nat.mod_eq_of_lt hsum]
  | cons c rest ih =>
    intro i sum hall hlen hsum
    have hc := hall c (List.mem_cons_self c rest)
    have hne : c ≠ 0 := by omega
    have hlen2 : i + 1 + (rest.length : Int) ≤ INT_MAX := by
      simp only [List.length_cons, Nat.cast_add, Nat.cast_one] at hlen; omega
    have hinc : intIncr i = .ok (i + 1) := intIncr_of_lt i (by omega)
    have hrest : ∀ d ∈ rest, 48 ≤ d ∧ (d - 48).toNat < fuel :=
      fun d hd => hall d (List.mem_cons_of_mem c hd)
    have hM : 0 < ULONG_MOD := by decide
    have hfact := factorial_of_nonneg fuel (c - 48) (by omega) hc.2
    rw [List.cons_append, cfactorial_sum_loop, if_neg hne]
    simp only [hfact, hinc]
    rw [ih (i + 1) _ hrest hlen2 (Nat.mod_lt _ hM)]
    simp only [List.map_cons, List.sum_cons, Nat.mod_add_mod, Nat.add_assoc]

/-- The loop of `cfactorial_sum` returns no value when a character below `'0'` comes
before the NUL: `factorial` is called on a negative argument. -/
theorem cfactorial_sum_loop_no_value_of_low (fuel : Nat) (tail : List Int) :
    ∀ (s : List Int) (i : Int) (sum : Nat),
      (∀ c ∈ s, c ≠ 0) → (∃ c ∈ s, c < 48) →
      ∀ v : Nat, cfactorial_sum_loop fuel (s ++ tail) i sum ≠ .ok v := by
  intro s
  induction s with
  | nil =>
    intro i sum _ hex
    obtain ⟨c, hc, _⟩ := hex
    simp at hc
  | cons c rest ih =>
    intro i sum hall hex v
    have hne : c ≠ 0 := hall c (List.mem_cons_self c rest)
    have hrest : ∀ d ∈ rest, d ≠ 0 := fun d hd => hall d (List.mem_cons_of_mem c hd)
    rw [List.cons_append, cfactorial_sum_loop, if_neg hne]
    cases hfact : factorial fuel (c - 48) with
    | error e => simp [hfact]
    | ok f =>
      simp only [hfact]
      have hc48 : ¬ c < 48 := fun hlt =>
        factorial_neg_no_value fuel (c - 48) (by omega) f hfact
      have hex2 : ∃ d ∈ rest, d < 48 := by
        obtain ⟨d, hd, hlt⟩ := hex
        rcases List.mem_cons.mp hd with rfl | hd2
        · exact absurd hlt hc48
        · exact ⟨d, hd2, hlt⟩
      cases hinc : intIncr i with
      | error e => simp [hinc]
      | ok j =>
        simp only [hinc]
        exact ih j _ hrest hex2 v

/-- C8 (counterexample): `cfactorial_sum("1a2")` does not fail with `InvalidArgument`:
it returns `1! + 49! + 2!` modulo `2^64`, the character `'a'` counting as the "digit"
`'a' - '0' = 49`. -/
theorem cfactorial_sum_1a2_not_rejected :
    cfactorial_sum 50 (cstring "1a2") = .ok 8789267254022766595 ∧
    (1 + Nat.factorial 49 + 2) % 2 ^ 64 = 8789267254022766595 ∧
    ¬ ∃ fuel : Nat, cfactorial_sum fuel (cstring "1a2") = .error .InvalidArgument := by
  refine ⟨by decide, by decide, ?_⟩
  rintro ⟨fuel, h⟩
  exact cfactorial_sum_loop_ne_invalidArgument fuel _ 0 0 h

/-- C8 (amended): for every string `s` (no NUL inside) with at least one character
outside `'0'..'9'`, `cfactorial_sum(s)` does not fail with `InvalidArgument`. When no
character is below `'0'` and the length is at most `INT_MAX`, it returns the sum over
all characters `c` of `factorial(c - '0')`, modulo `2^64`, as for digits. When some
character is below `'0'`, it returns no sum at all. -/
theorem cfactorial_sum_unvalidated (fuel : Nat) (s : List Int)
    (hnul : ∀ c ∈ s, c ≠ 0) (_hbad : ∃ c ∈ s, ¬ isDigitChar c) :
    cfactorial_sum fuel (s ++ [0]) ≠ .error .InvalidArgument ∧
    ((∀ c ∈ s, 48 ≤ c ∧ (c - 48).toNat < fuel) → (s.length : Int) ≤ INT_MAX →
      cfactorial_sum fuel (s ++ [0])
        = .ok ((s.map (fun c => (c - 48).toNat.factorial % 2 ^ 64)).sum % 2 ^ 64)) ∧
    ((∃ c ∈ s, c < 48) → ∀ v : Nat, cfactorial_sum fuel (s ++ [0]) ≠ .ok v) := by
  refine ⟨cfactorial_sum_loop_ne_invalidArgument fuel _ 0 0, ?_, ?_⟩
  · intro hall hlen
    have h := cfactorial_sum_loop_unvalidated fuel [] s 0 0 hall (by omega) (by decide)
    unfold cfactorial_sum
    rw [h, Nat.zero_add]
    rfl
  · intro hlow v
    exact cfactorial_sum_loop_no_value_of_low fuel [0] s 0 0 hnul hlow v

/-- C8 (amended) at `"1a2"` (`'1' = 49`, `'a' = 97`, `'2' = 50`). -/
theorem cfactorial_sum_unvalidated_witness :
    cfactorial_sum 50 ([49, 97, 50] ++ [0]) ≠ .error .InvalidArgument ∧
    cfactorial_sum 50 ([49, 97, 50] ++ [0]) = .ok 8789267254022766595 := by
  have h := cfactorial_sum_unvalidated 50 [49, 97, 50] (by decide) ⟨97, by decide, by decide⟩
  refine ⟨h.1, ?_⟩
  rw [h.2.1 (by decide) (by decide)]
  decide

/-- The loop of `ifactorial_sum` never fails with `InvalidArgument`. -/
theorem ifactorial_sum_loop_ne_invalidArgument (fuel : Nat) (size : Int) :
    ∀ (cells : List Int) (i : Int) (sum : Nat),
      ifactorial_sum_loop fuel size cells i sum ≠ .error .InvalidArgument := by
  intro cells
  induction cells with
  | nil =>
    intro i sum
    rw [ifactorial_sum_loop]
    split <;> simp
  | cons x rest ih =>
    intro i sum
    rw [ifactorial_sum_loop]
    split
    · cases hfact : factorial fuel x with
      | error e =>
        have h := factorial_ne_invalidArgument fuel x
        rw [hfact] at h
        simpa [hfact] using h
      | ok f =>
        simp only [hfact]
        by_cases hmax : INT_MAX ≤ i
        · simp [intIncr_of_ge i hmax]
        · simp only [intIncr_of_lt i (by omega)]
          exact ih (i + 1) _
    · simp

/-- The loop of `ifactorial_sum` over cells of which one is negative: the call of
`factorial` on the first negative cell, or an earlier one, does not return. -/
theorem ifactorial_sum_loop_negative (fuel : Nat) (size : Int) (hsize : size ≤ INT_MAX) :
    ∀ (xs : List Int) (i : Int) (sum : Nat),
      i + xs.length = size → (∃ x ∈ xs, x < 0) →
      ifactorial_sum_loop fuel size xs i sum = .error .OutOfFuel ∨
        ifactorial_sum_loop fuel size xs i sum = .error .SignedOverflow := by
  intro xs
  induction xs with
  | nil =>
    intro i sum _ hex
    obtain ⟨x, hx, _⟩ := hex
    simp at hx
  | cons x rest ih =>
    intro i sum hlen hex
    have hlen2 : i + 1 + (rest.length : Int) = size := by
      simp only [List.length_cons, Nat.cast_add, Nat.cast_one] at hlen; omega
    have hi : i < size := by omega
    rw [ifactorial_sum_loop, if_pos hi]
    cases hfact : factorial fuel x with
    | error e =>
      simp only [hfact]
      rcases factorial_error_cases fuel x e hfact with rfl | rfl
      · exact Or.inl rfl
      · exact Or.inr rfl
    | ok f =>
      simp only [hfact, intIncr_of_lt i (by omega)]
      have hx0 : ¬ x < 0 := fun hlt => factorial_neg_no_value fuel x hlt f hfact
      have hex2 : ∃ y ∈ rest, y < 0 := by
        obtain ⟨y, hy, hlt⟩ := hex
        rcases List.mem_cons.mp hy with rfl | hy2
        · exact absurd hlt hx0
        · exact ⟨y, hy2, hlt⟩
      exact ih (i + 1) _ hlen2 hex2

/-- C9 (counterexample): `ifactorial_sum([-1])` does not fail with `InvalidArgument`,
whatever the recursion budget: with a budget of 3 calls `factorial(-1)` is still
recursing. -/
theorem ifactorial_sum_neg_one_not_rejected :
    (¬ ∃ fuel : Nat, ifactorial_sum fuel [-1] 1 = .error .InvalidArgument) ∧
    ifactorial_sum 3 [-1] 1 = .error .OutOfFuel := by
  refine ⟨?_, by decide⟩
  rintro ⟨fuel, h⟩
  exact ifactorial_sum_loop_ne_invalidArgument fuel 1 _ 0 0 h

/-- C9 (amended): for every array of `size` `long` values of which at least one is
negative, `ifactorial_sum` returns no sum, partial or whole, and does not fail with
`InvalidArgument` either: a call of `factorial` does not return, ending with the
recursion budget or with a signed overflow. -/
theorem ifactorial_sum_negative_unguarded (fuel : Nat) (values : List Int) (size : Int)
    (hlen : (values.length : Int) = size) (hsize : size ≤ INT_MAX)
    (hneg : ∃ x ∈ values, x < 0) :
    ifactorial_sum fuel values size ≠ .error .InvalidArgument ∧
    (∀ v : Nat, ifactorial_sum fuel values size ≠ .ok v) ∧
    (ifactorial_sum fuel values size = .error .OutOfFuel ∨
      ifactorial_sum fuel values size = .error .SignedOverflow) := by
  have h := ifactorial_sum_loop_negative fuel size hsize values 0 0 (by omega) hneg
  unfold ifactorial_sum
  refine ⟨ifactorial_sum_loop_ne_invalidArgument fuel size _ 0 0, ?_, h⟩
  intro v hv
  rcases h with h | h <;> rw [h] at hv <;> simp at hv

/-- C9 (amended) at `[3, -1, 4]` with a budget of 10 calls: nothing comes back of
`3! = 6`. -/
theorem ifactorial_sum_negative_unguarded_witness :
    (∀ v : Nat, ifactorial_sum 10 [3, -1, 4] 3 ≠ .ok v) ∧
    ifactorial_sum 10 [3, -1, 4] 3 = .error .OutOfFuel :=
  ⟨(ifactorial_sum_negative_unguarded 10 [3, -1, 4] 3 (by decide) (by decide)
      ⟨-1, by decide, by decide⟩).2.1, by decide⟩

/-! ## The chain of recursive calls -/

/-- The chain of calls of `factorial` from `n`: when the first `k` arguments
`n, n-1, ...` neither are 0 nor sit at `LONG_MIN` and the next one does, the calls
are `n, n-1, ..., n-k`, cut at the recursion budget. -/
theorem factorial_calls_eq :
    ∀ (fuel : Nat) (n : Int) (k : Nat),
      (∀ i : Nat, i < k → n - i ≠ 0 ∧ ¬ (n - i - 1 < LONG_MIN)) →
      (n - k = 0 ∨ n - k - 1 < LONG_MIN) →
      factorial_calls fuel n = (List.range (min fuel (k + 1))).map (fun i : Nat => n - (i : Int)) := by
  intro fuel
  induction fuel with
  | zero =>
    intro n k _ _
    simp [factorial_calls]
  | succ f ih =>
    intro n k hrun hstop
    cases k with
    | zero =>
      have hmin : min (f + 1) (0 + 1) = 1 := by omega
      have hone : (List.range 1).map (fun i : Nat => n - (i : Int)) = [n] := by
        simp [List.range_succ]
      rw [hmin, hone]
      simp only [Nat.cast_zero, sub_zero] at hstop
      rw [factorial_calls]
      rcases hstop with h0 | hmin2
      · rw [if_pos h0]
      · by_cases h0 : n = 0
        · rw [if_pos h0]
        · rw [if_neg h0, if_pos hmin2]
    | succ k =>
      have h0 := hrun 0 (by omega)
      simp only [Nat.cast_zero, sub_zero] at h0
      have hmin : min (f + 1) (k + 1 + 1) = min f (k + 1) + 1 := by omega
      have hrun2 : ∀ i : Nat, i < k → n - 1 - (i : Int) ≠ 0 ∧ ¬ (n - 1 - (i : Int) - 1 < LONG_MIN) := by
        intro i hi
        have h := hrun (i + 1) (by omega)
        have e : n - ((i + 1 : Nat) : Int) = n - 1 - (i : Int) := by push_cast; ring
        rwa [e] at h
      have hstop2 : n - 1 - (k : Int) = 0 ∨ n - 1 - (k : Int) - 1 < LONG_MIN := by
        have e : n - ((k + 1 : Nat) : Int) = n - 1 - (k : Int) := by push_cast; ring
        rwa [e] at hstop
      rw [factorial_calls, if_neg h0.1, if_neg h0.2, ih (n - 1) k hrun2 hstop2, hmin,
        List.range_succ_eq_map, List.map_cons, List.map_map]
      simp only [Nat.cast_zero, sub_zero]
      congr 1
      apply List.map_congr_left
      intro i _
      simp only [Function.comp, Nat.succ_eq_add_one]
      push_cast
      ring

/-- Below the number of calls it needs, the budget runs out. -/
theorem factorial_out_of_fuel :
    ∀ (fuel : Nat) (n : Int), 0 ≤ n → fuel ≤ n.toNat → factorial fuel n = .error .OutOfFuel := by
  intro fuel
  induction fuel with
  | zero => intro n _ _; rfl
  | succ f ih =>
    intro n h0 hf
    have hlo : ¬ (n - 1 < LONG_MIN) := by unfold LONG_MIN; omega
    rw [factorial, if_neg (by omega), if_neg hlo, ih (n - 1) (by omega) (by omega)]

/-- C12: for every `long` `n < 0` the recursive arguments of `factorial(n)` are
`n, n-1, n-2, ...` down to `LONG_MIN` at most; none of them is 0, the only base
case, so the call returns no value, and a run that is not cut short ends with the
signed overflow of `LONG_MIN - 1`. -/
theorem factorial_negative_never_reaches_base (fuel : Nat) (n : Int) (hneg : n < 0)
    (hlo : LONG_MIN ≤ n) :
    factorial_calls fuel n
      = (List.range (min fuel ((n - LONG_MIN).toNat + 1))).map (fun i : Nat => n - (i : Int)) ∧
    (∀ m ∈ factorial_calls fuel n, m ≠ 0 ∧ LONG_MIN ≤ m ∧ m ≤ n) ∧
    (∀ v : Nat, factorial fuel n ≠ .ok v) ∧
    (n - LONG_MIN < (fuel : Int) → factorial fuel n = .error .SignedOverflow) := by
  have hk : ((n - LONG_MIN).toNat : Int) = n - LONG_MIN := Int.toNat_of_nonneg (by omega)
  have hchain := factorial_calls_eq fuel n (n - LONG_MIN).toNat
    (by intro i hi; constructor <;> omega) (by right; omega)
  refine ⟨hchain, ?_, factorial_neg_no_value fuel n hneg, ?_⟩
  · intro m hm
    rw [hchain] at hm
    obtain ⟨i, hi, rfl⟩ := List.mem_map.mp hm
    have hi2 := List.mem_range.mp hi
    have : i < (n - LONG_MIN).toNat + 1 := lt_of_lt_of_le hi2 (Nat.min_le_right _ _)
    refine ⟨?_, ?_, ?_⟩ <;> omega
  · intro h
    rw [factorial_of_neg fuel n hneg hlo, if_neg (by omega)]

/-- C12 at `n = -3` with a budget of 4 calls: the arguments are `-3, -4, -5, -6`. -/
theorem factorial_negative_never_reaches_base_witness :
    factorial_calls 4 (-3) = [-3, -4, -5, -6] ∧ ∀ v : Nat, factorial 4 (-3) ≠ .ok v := by
  have h := factorial_negative_never_reaches_base 4 (-3) (by decide) (by decide)
  exact ⟨by decide, h.2.2.1⟩

/-- C13 (counterexample): the depth of the call stack of `factorial` is not bounded
independently of `n`: no budget of pending calls within the range of `long` serves
every `n ≥ 0`, and already `factorial(5)` does not return within 5 nested calls, while
it returns 120 within 6. -/
theorem factorial_depth_not_constant :
    (¬ ∃ B : Nat, (B : Int) ≤ LONG_MAX ∧
      ∀ n : Int, 0 ≤ n → n ≤ LONG_MAX → ∃ v : Nat, factorial B n = .ok v) ∧
    factorial 5 5 = .error .OutOfFuel ∧ factorial 6 5 = .ok 120 ∧
    factorial_calls 6 5 = [5, 4, 3, 2, 1, 0] := by
  refine ⟨?_, by decide, by decide, by decide⟩
  rintro ⟨B, hB, h⟩
  obtain ⟨v, hv⟩ := h (B : Int) (Int.ofNat_nonneg B) hB
  rw [factorial_out_of_fuel B (B : Int) (Int.ofNat_nonneg B) (by simp)] at hv
  simp at hv

/-- C13 (amended): `factorial` is plainly recursive, not iterative nor tail-recursive:
for every `long` `n ≥ 0`, `factorial(n)` returns exactly when `n + 1` nested calls are
allowed, and then `n + 1` calls are pending at once: the depth of the call stack grows
in proportion to `n`. -/
theorem factorial_depth_linear (fuel : Nat) (n : Int) (h0 : 0 ≤ n) (_hmax : n ≤ LONG_MAX) :
    ((∃ v : Nat, factorial fuel n = .ok v) ↔ n.toNat + 1 ≤ fuel) ∧
    (fuel ≤ n.toNat → factorial fuel n = .error .OutOfFuel) ∧
    (n.toNat + 1 ≤ fuel → (factorial_calls fuel n).length = n.toNat + 1) := by
  have hn : ((n.toNat : Nat) : Int) = n := Int.toNat_of_nonneg h0
  refine ⟨⟨?_, ?_⟩, factorial_out_of_fuel fuel n h0, ?_⟩
  · rintro ⟨v, hv⟩
    by_contra hlt
    rw [factorial_out_of_fuel fuel n h0 (by omega)] at hv
    simp at hv
  · intro hf
    exact ⟨_, factorial_of_nonneg fuel n h0 (by omega)⟩
  · intro hf
    rw [factorial_calls_eq fuel n n.toNat (by intro i hi; unfold LONG_MIN; constructor <;> omega)
      (by left; omega)]
    simp only [List.length_map, List.length_range]
    omega

/-- C13 (amended) at `n = 20`: 21 nested calls are needed. -/
theorem factorial_depth_linear_witness :
    ((∃ v : Nat, factorial 20 20 = .ok v) ↔ (20 : Int).toNat + 1 ≤ 20) ∧
    factorial 20 20 = .error .OutOfFuel := by
  have h := factorial_depth_linear 20 20 (by decide) (by decide)
  exact ⟨h.1, h.2.1 (by decide)⟩

/-- C15: for every `long` `n ≥ 0`, `factorial(n)` terminates: its arguments go
`n, n-1, ..., 0`, each one smaller and none negative, so the base case `n == 0` is
the call number `n + 1`, after exactly `n` recursive calls; the call returns with a
budget of `n + 1` calls and with no smaller one. -/
theorem factorial_terminates (fuel : Nat) (n : Int) (h0 : 0 ≤ n) (_hmax : n ≤ LONG_MAX)
    (hf : n.toNat < fuel) :
    (∃ v : Nat, factorial fuel n = .ok v) ∧
    factorial_calls fuel n = (List.range (n.toNat + 1)).map (fun i : Nat => n - (i : Int)) ∧
    (factorial_calls fuel n).length = n.toNat + 1 ∧
    (factorial_calls fuel n)[n.toNat]? = some 0 ∧
    (∀ i : Nat, i < n.toNat → ∃ m : Int, (factorial_calls fuel n)[i]? = some m ∧ 0 < m) ∧
    (∀ less : Nat, less ≤ n.toNat → factorial less n = .error .OutOfFuel) := by
  have hn : ((n.toNat : Nat) : Int) = n := Int.toNat_of_nonneg h0
  have hchain : factorial_calls fuel n
      = (List.range (n.toNat + 1)).map (fun i : Nat => n - (i : Int)) := by
    rw [factorial_calls_eq fuel n n.toNat
      (by intro i hi; unfold LONG_MIN; constructor <;> omega) (by left; omega)]
    have hmin : min fuel (n.toNat + 1) = n.toNat + 1 := by omega
    rw [hmin]
  refine ⟨⟨_, factorial_of_nonneg fuel n h0 hf⟩, hchain, ?_, ?_, ?_,
    fun less hl => factorial_out_of_fuel less n h0 hl⟩
  · rw [hchain]; simp
  · rw [hchain, List.getElem?_map, List.getElem?_range (by omega)]
    simp [hn]
  · intro i hi
    refine ⟨n - (i : Int), ?_, by omega⟩
    rw [hchain, List.getElem?_map, List.getElem?_range (by omega)]
    rfl

/-- C15 at `n = 4`: the calls are on `4, 3, 2, 1, 0`. -/
theorem factorial_terminates_witness :
    (∃ v : Nat, factorial 5 4 = .ok v) ∧ factorial_calls 5 4 = [4, 3, 2, 1, 0] := by
  have h := factorial_terminates 5 4 (by decide) (by decide) (by decide)
  exact ⟨h.1, by decide⟩

/-! ## The two sums compared, split and bounded -/

/-- The value of `ifactorial_sum` on an array of non-negative cells that fits its
`int` size. -/
theorem ifactorial_sum_value (fuel : Nat) (xs : List Int)
    (hall : ∀ x ∈ xs, 0 ≤ x ∧ x.toNat < fuel) (hlen : (xs.length : Int) ≤ INT_MAX) :
    ifactorial_sum fuel xs xs.length
      = .ok ((xs.map (fun x => x.toNat.factorial % ULONG_MOD)).sum % ULONG_MOD) := by
  have h := ifactorial_sum_loop_nonneg fuel xs.length hlen xs 0 0 hall (by omega) (by decide)
  unfold ifactorial_sum
  rw [h, Nat.zero_add]

/-- The value of `cfactorial_sum` on a string of digits that fits the `int` index. -/
theorem cfactorial_sum_value (fuel : Nat) (hf : 10 ≤ fuel) (s : List Int)
    (hs : ∀ c ∈ s, isDigitChar c) (hlen : (s.length : Int) ≤ INT_MAX) :
    cfactorial_sum fuel (s ++ [0])
      = .ok ((s.map (fun c => (c - 48).toNat.factorial)).sum % ULONG_MOD) := by
  have h := cfactorial_sum_loop_digits fuel hf [] s 0 0 hs (by omega) (by decide)
  unfold cfactorial_sum
  rw [h, Nat.zero_add]

/-- The digit values of a string of digits are non-negative and below 10. -/
theorem digit_values_small (fuel : Nat) (hf : 10 ≤ fuel) (s : List Int)
    (hs : ∀ c ∈ s, isDigitChar c) :
    ∀ x ∈ s.map (fun c => c - 48), 0 ≤ x ∧ x.toNat < fuel := by
  intro x hx
  obtain ⟨c, hc, rfl⟩ := List.mem_map.mp hx
  have h : 48 ≤ c ∧ c ≤ 57 := hs c hc
  constructor <;> omega

/-- The sum of one summand repeated `n` times. -/
theorem sum_map_replicate (f : Int → Nat) (c : Int) (n : Nat) :
    ((List.replicate n c).map f).sum = n * f c := by
  induction n with
  | zero => simp
  | succ n ih =>
    rw [List.replicate_succ, List.map_cons, List.sum_cons, ih, Nat.succ_mul, Nat.add_comm]

/-- C16: for every string `s` of digits, whose length is the `int` argument `size`,
`cfactorial_sum(s)` returns what `ifactorial_sum` returns on the array of the digit
values `c - '0'` of `s`, in order, with `size` the length of `s`. -/
theorem cfactorial_sum_eq_ifactorial_sum_digits (fuel : Nat) (s : List Int) (hf : 10 ≤ fuel)
    (hs : ∀ c ∈ s, isDigitChar c) (hlen : (s.length : Int) ≤ INT_MAX) :
    cfactorial_sum fuel (s ++ [0]) = ifactorial_sum fuel (s.map (fun c => c - 48)) s.length ∧
    ∃ v : Nat, cfactorial_sum fuel (s ++ [0]) = .ok v := by
  have hc := cfactorial_sum_value fuel hf s hs hlen
  have hi := ifactorial_sum_value fuel (s.map (fun c => c - 48))
    (digit_values_small fuel hf s hs) (by rw [List.length_map]; exact hlen)
  rw [List.length_map] at hi
  refine ⟨?_, _, hc⟩
  rw [hc, hi, List.map_map]
  congr 1
  exact (sum_map_mod (fun c => (c - 48).toNat.factorial) ULONG_MOD s).symm

/-- C16 at the string `"145"`: both sums are `1! + 4! + 5! = 145`. -/
theorem cfactorial_sum_eq_ifactorial_sum_digits_witness :
    cfactorial_sum 10 ([49, 52, 53] ++ [0]) = ifactorial_sum 10 [1, 4, 5] 3 ∧
    ifactorial_sum 10 [1, 4, 5] 3 = .ok 145 :=
  ⟨(cfactorial_sum_eq_ifactorial_sum_digits 10 [49, 52, 53] (by decide) (by decide)
      (by decide)).1, by decide⟩

/-- C17 (counterexample): two strings of `2^30` characters `'1'` each have the sum
`2^30`, but `cfactorial_sum` of their concatenation is not the sum `2^31` of the two:
the `int` index overflows on its `2^31` characters. -/
theorem cfactorial_sum_append_overflow :
    cfactorial_sum 10 (List.replicate 1073741824 (49 : Int) ++ [0]) = .ok 1073741824 ∧
    cfactorial_sum 10
      ((List.replicate 1073741824 (49 : Int) ++ List.replicate 1073741824 (49 : Int)) ++ [0])
      = .error .SignedOverflow := by
  have hdigit : ∀ c ∈ List.replicate 1073741824 (49 : Int), isDigitChar c := by
    intro c hc
    rw [List.eq_of_mem_replicate hc]
    decide
  constructor
  · have hlen : ((List.replicate 1073741824 (49 : Int)).length : Int) ≤ INT_MAX := by
      rw [List.length_replicate]
      decide
    rw [cfactorial_sum_value 10 (by decide) _ hdigit hlen, sum_map_replicate]
    decide
  · have hboth : ∀ c ∈ List.replicate 1073741824 (49 : Int) ++ List.replicate 1073741824 (49 : Int),
        isDigitChar c := by
      intro c hc
      rcases List.mem_append.mp hc with h | h <;> exact hdigit c h
    have hlen : INT_MAX < (0 : Int) +
        ((List.replicate 1073741824 (49 : Int) ++ List.replicate 1073741824 (49 : Int)).length
          : Int) := by
      rw [List.length_append, List.length_replicate]
      decide
    exact cfactorial_sum_loop_overflow 10 (by decide) [] _ 0 0 hboth (by decide) hlen

/-- C17 (amended): the sums are additive over concatenation modulo `2^64` as long as
the concatenation still fits the `int` size, resp. index: for lists `xs`, `ys` of
non-negative values, `ifactorial_sum(xs ++ ys)` is the sum of `ifactorial_sum(xs)` and
`ifactorial_sum(ys)` modulo `2^64`, and likewise `cfactorial_sum(s ++ t)` for strings
of digits `s`, `t`. -/
theorem factorial_sums_append :
    (∀ (fuel : Nat) (xs ys : List Int),
      (∀ x ∈ xs ++ ys, 0 ≤ x ∧ x ≤ LONG_MAX ∧ x.toNat < fuel) →
      ((xs ++ ys).length : Int) ≤ INT_MAX →
      ∃ a b : Nat, ifactorial_sum fuel xs xs.length = .ok a ∧
        ifactorial_sum fuel ys ys.length = .ok b ∧
        ifactorial_sum fuel (xs ++ ys) (xs ++ ys).length = .ok ((a + b) % 2 ^ 64)) ∧
    (∀ (fuel : Nat) (s t : List Int), 10 ≤ fuel → (∀ c ∈ s ++ t, isDigitChar c) →
      ((s ++ t).length : Int) ≤ INT_MAX →
      ∃ a b : Nat, cfactorial_sum fuel (s ++ [0]) = .ok a ∧
        cfactorial_sum fuel (t ++ [0]) = .ok b ∧
        cfactorial_sum fuel ((s ++ t) ++ [0]) = .ok ((a + b) % 2 ^ 64)) := by
  have hM : ULONG_MOD = 2 ^ 64 := by decide
  constructor
  · intro fuel xs ys hall hlen
    have hxy : ∀ x ∈ xs ++ ys, 0 ≤ x ∧ x.toNat < fuel :=
      fun x hx => ⟨(hall x hx).1, (hall x hx).2.2⟩
    have hx : ∀ x ∈ xs, 0 ≤ x ∧ x.toNat < fuel :=
      fun x h => hxy x (List.mem_append_left ys h)
    have hy : ∀ y ∈ ys, 0 ≤ y ∧ y.toNat < fuel :=
      fun y h => hxy y (List.mem_append_right xs h)
    have hl : (xs.length : Int) + (ys.length : Int) ≤ INT_MAX := by
      rw [List.length_append] at hlen; exact_mod_cast hlen
    refine ⟨_, _, ifactorial_sum_value fuel xs hx (by omega),
      ifactorial_sum_value fuel ys hy (by omega), ?_⟩
    rw [ifactorial_sum_value fuel (xs ++ ys) hxy hlen, List.map_append, List.sum_append,
      ← hM, ← Nat.add_mod]
  · intro fuel s t hf hall hlen
    have hs : ∀ c ∈ s, isDigitChar c := fun c h => hall c (List.mem_append_left t h)
    have ht : ∀ c ∈ t, isDigitChar c := fun c h => hall c (List.mem_append_right s h)
    have hl : (s.length : Int) + (t.length : Int) ≤ INT_MAX := by
      rw [List.length_append] at hlen; exact_mod_cast hlen
    refine ⟨_, _, cfactorial_sum_value fuel hf s hs (by omega),
      cfactorial_sum_value fuel hf t ht (by omega), ?_⟩
    rw [cfactorial_sum_value fuel hf (s ++ t) hall hlen, List.map_append, List.sum_append,
      ← hM, ← Nat.add_mod]

/-- C17 (amended) at `[3, 21] ++ [4]`: the parts sum to `3! + 21!` (wrapped) and `4!`. -/
theorem factorial_sums_append_witness :
    ∃ a b : Nat, ifactorial_sum 22 [3, 21] 2 = .ok a ∧ ifactorial_sum 22 [4] 1 = .ok b ∧
      ifactorial_sum 22 [3, 21, 4] 3 = .ok ((a + b) % 2 ^ 64) :=
  factorial_sums_append.1 22 [3, 21] [4] (by decide) (by decide)

/-- `2^64` divides `k!` exactly from `k = 66` on. -/
theorem ulong_mod_dvd_factorial_iff (k : Nat) : ULONG_MOD ∣ k.factorial ↔ 66 ≤ k := by
  constructor
  · intro h
    by_contra hlt
    have h65 : ULONG_MOD ∣ Nat.factorial 65 :=
      Nat.dvd_trans h (Nat.factorial_dvd_factorial (by omega))
    exact absurd h65 (by decide)
  · exact ulong_mod_dvd_factorial k

/-- C18: under the 64-bit wraparound `factorial(n)` is 0 for every `long` `n ≥ 66`
and is not 0 for `n` in `[0, 65]`, because `2^64` divides `n!` exactly when `n ≥ 66`;
so a cell `x ≥ 66` of the array adds nothing to `ifactorial_sum`: the sum is the same
as without the cell. -/
theorem factorial_zero_from_66 :
    (∀ (fuel : Nat) (n : Int), 66 ≤ n → n ≤ LONG_MAX → n.toNat < fuel →
      factorial fuel n = .ok 0) ∧
    (∀ (fuel : Nat) (n : Int), 0 ≤ n → n ≤ 65 → n.toNat < fuel →
      ∃ v : Nat, factorial fuel n = .ok v ∧ v ≠ 0) ∧
    (∀ k : Nat, 2 ^ 64 ∣ k.factorial ↔ 66 ≤ k) ∧
    (∀ (fuel : Nat) (xs ys : List Int) (x : Int),
      (∀ y ∈ xs ++ x :: ys, 0 ≤ y ∧ y ≤ LONG_MAX ∧ y.toNat < fuel) → 66 ≤ x →
      ((xs ++ x :: ys).length : Int) ≤ INT_MAX →
      ifactorial_sum fuel (xs ++ x :: ys) (xs ++ x :: ys).length
          = ifactorial_sum fuel (xs ++ ys) (xs ++ ys).length ∧
        ∃ v : Nat, ifactorial_sum fuel (xs ++ ys) (xs ++ ys).length = .ok v) := by
  have hM : ULONG_MOD = 2 ^ 64 := by decide
  refine ⟨?_, ?_, ?_, ?_⟩
  · intro fuel n h66 _ hf
    rw [factorial_of_nonneg fuel n (by omega) hf,
      Nat.mod_eq_zero_of_dvd (ulong_mod_dvd_factorial n.toNat (by omega))]
  · intro fuel n h0 h65 hf
    refine ⟨_, factorial_of_nonneg fuel n h0 hf, ?_⟩
    intro hzero
    have hdvd : ULONG_MOD ∣ n.toNat.factorial := Nat.dvd_of_mod_eq_zero hzero
    have := (ulong_mod_dvd_factorial_iff n.toNat).mp hdvd
    omega
  · intro k
    rw [← hM]
    exact ulong_mod_dvd_factorial_iff k
  · intro fuel xs ys x hall h66 hlen
    have hfull : ∀ y ∈ xs ++ x :: ys, 0 ≤ y ∧ y.toNat < fuel :=
      fun y hy => ⟨(hall y hy).1, (hall y hy).2.2⟩
    have hless : ∀ y ∈ xs ++ ys, 0 ≤ y ∧ y.toNat < fuel := by
      intro y hy
      apply hfull
      rcases List.mem_append.mp hy with h | h
      · exact List.mem_append_left _ h
      · exact List.mem_append_right _ (List.mem_cons_of_mem x h)
    have hlen2 : ((xs ++ ys).length : Int) ≤ INT_MAX := by
      simp only [List.length_append, List.length_cons, Nat.cast_add, Nat.cast_one] at hlen ⊢
      omega
    have hx : x.toNat.factorial % ULONG_MOD = 0 :=
      Nat.mod_eq_zero_of_dvd (ulong_mod_dvd_factorial x.toNat (by omega))
    refine ⟨?_, _, ifactorial_sum_value fuel (xs ++ ys) hless hlen2⟩
    rw [ifactorial_sum_value fuel (xs ++ x :: ys) hfull hlen,
      ifactorial_sum_value fuel (xs ++ ys) hless hlen2]
    simp only [List.map_append, List.map_cons, List.sum_append, List.sum_cons, hx, Nat.zero_add]

/-- C18 at `n = 66` and at the array `[3, 66, 4]`, which sums like `[3, 4]`. -/
theorem factorial_zero_from_66_witness :
    factorial 67 66 = .ok 0 ∧ ifactorial_sum 67 [3, 66, 4] 3 = ifactorial_sum 67 [3, 4] 2 := by
  have h1 := factorial_zero_from_66.1 67 66 (by decide) (by decide) (by decide)
  have h2 := factorial_zero_from_66.2.2.2 67 [3] [4] 66 (by decide) (by decide) (by decide)
  exact ⟨h1, h2.1⟩

/-- The digit factorials of a string of digits sum to between its length and 362880 times
its length. -/
theorem digit_factorial_sum_bounds (s : List Int) (hs : ∀ c ∈ s, isDigitChar c) :
    s.length ≤ (s.map (fun c => (c - 48).toNat.factorial)).sum ∧
    (s.map (fun c => (c - 48).toNat.factorial)).sum ≤ 362880 * s.length := by
  induction s with
  | nil => simp
  | cons c rest ih =>
    have hc : 48 ≤ c ∧ c ≤ 57 := hs c (List.mem_cons_self c rest)
    have hrest := ih (fun d hd => hs d (List.mem_cons_of_mem c hd))
    have hpos : 1 ≤ (c - 48).toNat.factorial := Nat.factorial_pos _
    have hle : (c - 48).toNat.factorial ≤ 362880 :=
      le_trans (Nat.factorial_le (show (c - 48).toNat ≤ 9 by omega)) (by decide)
    simp only [List.map_cons, List.sum_cons, List.length_cons]
    omega

/-- C19: for every string `s` of digits of length below `2^31`, `cfactorial_sum(s)`
does not wrap: it returns the exact sum of the digit factorials, which is below `2^64`
and lies between `length(s)` and `362880 * length(s)`. -/
theorem cfactorial_sum_exact (fuel : Nat) (s : List Int) (hf : 10 ≤ fuel)
    (hs : ∀ c ∈ s, isDigitChar c) (hlen : s.length < 2 ^ 31) :
    cfactorial_sum fuel (s ++ [0]) = .ok (s.map (fun c => (c - 48).toNat.factorial)).sum ∧
    (s.map (fun c => (c - 48).toNat.factorial)).sum < 2 ^ 64 ∧
    s.length ≤ (s.map (fun c => (c - 48).toNat.factorial)).sum ∧
    (s.map (fun c => (c - 48).toNat.factorial)).sum ≤ 362880 * s.length := by
  have hb := digit_factorial_sum_bounds s hs
  have hlt : (s.map (fun c => (c - 48).toNat.factorial)).sum < 2 ^ 64 := by omega
  have hfit : (s.length : Int) ≤ INT_MAX := by unfold INT_MAX; omega
  refine ⟨?_, hlt, hb.1, hb.2⟩
  rw [cfactorial_sum_value fuel hf s hs hfit, Nat.mod_eq_of_lt (by unfold ULONG_MOD; omega)]

/-- C19 at the string `"999"`: the sum is `3 * 9! = 1088640`, the upper bound. -/
theorem cfactorial_sum_exact_witness :
    cfactorial_sum 10 ([57, 57, 57] ++ [0]) = .ok 1088640 := by
  have h := (cfactorial_sum_exact 10 [57, 57, 57] (by decide) (by decide) (by decide)).1
  rw [h]
  decide

/-! ## The bindings -/

/-- C14 (the code at the failing input): for the list `[13]` the core returns
`13! = 6227020800` and the binding `iFactorial_sum` hands the host `1932053504`, the
low 32 bits; whatever `Py_BuildValue("i", ...)` builds is a C `int`, so no sum from
`2^31` on reaches the host unchanged, as with the string of 5918 characters `'9'`,
whose sum `2147523840` arrives as `-2147443456`; below `2^31` the value is kept. -/
theorem bindings_truncate_to_int :
    ifactorial_sum 14 [13] 1 = .ok 6227020800 ∧
    iFactorial_sum 14 [13] = .ok 1932053504 ∧
    cfactorial_sum 10 (List.replicate 5918 (57 : Int) ++ [0]) = .ok 2147523840 ∧
    cFactorial_sum 10 (List.replicate 5918 (57 : Int) ++ [0]) = .ok (-2147443456) ∧
    (∀ x : Nat, -2147483648 ≤ Py_BuildValue_i x ∧ Py_BuildValue_i x ≤ INT_MAX) ∧
    (∀ x : Nat, x < 2147483648 → Py_BuildValue_i x = (x : Int)) := by
  have hdigit : ∀ c ∈ List.replicate 5918 (57 : Int), isDigitChar c := by
    intro c hc
    rw [List.eq_of_mem_replicate hc]
    decide
  have hlen : ((List.replicate 5918 (57 : Int)).length : Int) ≤ INT_MAX := by
    rw [List.length_replicate]
    decide
  have hcore : cfactorial_sum 10 (List.replicate 5918 (57 : Int) ++ [0]) = .ok 2147523840 := by
    rw [cfactorial_sum_value 10 (by decide) _ hdigit hlen, sum_map_replicate]
    decide
  refine ⟨by decide, by decide, hcore, ?_, ?_, ?_⟩
  · unfold cFactorial_sum
    rw [hcore]
    decide
  · intro x
    unfold Py_BuildValue_i INT_MAX
    simp only []
    split <;> omega
  · intro x hx
    unfold Py_BuildValue_i
    simp only []
    rw [Nat.mod_eq_of_lt (by omega), if_pos (by omega)]

/-! ## The discriminant -/

theorem integerArith_exact : ExactOnSmall integerArith where
  mul_exact := fun _ _ _ => rfl
  sub_exact := fun _ _ _ _ => rfl
  ofInt_inj := fun _ _ _ _ h => Int.ofNat.inj h

/-- C11 (the code at the failing input): at `a = 1`, `b = 2`, `c = 1`, in every double
arithmetic that is exact on small integers, `calculate_discriminant` and the formula
inlined in `lnpy_cmath.c` return `2 * 2 - 4 * 1 * 1 = 0`, while the formula of the
documentation strings, `b^2 * 4ac`, gives `16`: the two differ. -/
theorem calculate_discriminant_ne_docstring {D : Type} (A : DoubleArith D)
    (hA : ExactOnSmall A) :
    calculate_discriminant A (A.ofInt 1) (A.ofInt 2) (A.ofInt 1) = A.ofInt 0 ∧
    lnpy_cmath_calculate_discriminant A (A.ofInt 1) (A.ofInt 2) (A.ofInt 1) = A.ofInt 0 ∧
    docstring_discriminant A (A.ofInt 1) (A.ofInt 2) (A.ofInt 1) = A.ofInt 16 ∧
    calculate_discriminant A (A.ofInt 1) (A.ofInt 2) (A.ofInt 1)
      ≠ docstring_discriminant A (A.ofInt 1) (A.ofInt 2) (A.ofInt 1) := by
  have hbb : A.mul (A.ofInt 2) (A.ofInt 2) = A.ofInt 4 := hA.mul_exact 2 2 (by decide)
  have h4a : A.mul (A.ofInt 4) (A.ofInt 1) = A.ofInt 4 := hA.mul_exact 4 1 (by decide)
  have hsub : A.sub (A.ofInt 4) (A.ofInt 4) = A.ofInt 0 :=
    hA.sub_exact 4 4 (by decide) (by decide)
  have hmul : A.mul (A.ofInt 4) (A.ofInt 4) = A.ofInt 16 := hA.mul_exact 4 4 (by decide)
  have hcode : calculate_discriminant A (A.ofInt 1) (A.ofInt 2) (A.ofInt 1) = A.ofInt 0 := by
    simp only [calculate_discriminant, hbb, h4a, hsub]
  have hinline :
      lnpy_cmath_calculate_discriminant A (A.ofInt 1) (A.ofInt 2) (A.ofInt 1) = A.ofInt 0 := by
    simp only [lnpy_cmath_calculate_discriminant, hbb, h4a, hsub]
  have hdoc : docstring_discriminant A (A.ofInt 1) (A.ofInt 2) (A.ofInt 1) = A.ofInt 16 := by
    simp only [docstring_discriminant, hbb, h4a, hmul]
  refine ⟨hcode, hinline, hdoc, ?_⟩
  rw [hcode, hdoc]
  intro h
  have := hA.ofInt_inj 0 16 (by decide) (by decide) h
  omega

/-- C11 on the integers: `2 * 2 - 4 * 1 * 1 = 0` and `(2 * 2) * (4 * 1 * 1) = 16`. -/
theorem calculate_discriminant_ne_docstring_witness :
    calculate_discriminant integerArith 1 2 1 = 0 ∧
    docstring_discriminant integerArith 1 2 1 = 16 :=
  ⟨(calculate_discriminant_ne_docstring integerArith integerArith_exact).1,
    (calculate_discriminant_ne_docstring integerArith integerArith_exact).2.2.1⟩

end Libnumerixpy
